import Mathlib

/-!
Verification of the remote file-access protocol client
(`src/vs/workbench/services/files/remote/`): the envelope schema declared in
`messages.ts`, the wire codec / frame reader / dispatcher / sequence counter
described by the specification, and the concrete methods of `FileService` in
`remoteFileService.ts`.

Machine integers are modelled as `Nat` / `Int`; bytes are `Nat` values below
256; fallible operations return `Option` / `Except`.
-/

namespace RemoteProtocol

/-! ### Variable-length integer encoding

Modelled from the spec: the Envelope Codec (§4.1) is not present under `src/`
(only the schema declarations are); the spec requires a self-delimiting
encoding supporting arbitrary nesting, so integers are encoded little-endian
base 128 with a continuation bit, the standard self-delimiting scheme for
this kind of wire format. -/

def encodeVarint (n : Nat) : List Nat :=
  if n < 128 then [n]
  else (n % 128 + 128) :: encodeVarint (n / 128)
decreasing_by
  exact Nat.div_lt_self (by omega) (by omega)

def decodeVarint : List Nat → Option (Nat × List Nat)
  | [] => none
  | b :: rest =>
    if b < 128 then some (b, rest)
    else
      match decodeVarint rest with
      | some (m, r) => some ((b - 128) + 128 * m, r)
      | none => none

theorem encodeVarint_ne_nil (n : Nat) : encodeVarint n ≠ [] := by
  rw [encodeVarint]
  split <;> simp

theorem encodeVarint_length_pos (n : Nat) : 0 < (encodeVarint n).length := by
  cases h : encodeVarint n with
  | nil => exact absurd h (encodeVarint_ne_nil n)
  | cons a l => simp

theorem decodeVarint_encodeVarint (n : Nat) (rest : List Nat) :
    decodeVarint (encodeVarint n ++ rest) = some (n, rest) := by
  induction n using Nat.strong_induction_on with
  | _ n ih =>
    rw [encodeVarint]
    by_cases h : n < 128
    · simp [h, decodeVarint]
    · have hdiv : n / 128 < n := Nat.div_lt_self (by omega) (by omega)
      simp only [if_neg h, List.cons_append, decodeVarint]
      have hmod : ¬ (n % 128 + 128 < 128) := by omega
      rw [if_neg hmod, ih (n / 128) hdiv]
      have hval : n % 128 + 128 * (n / 128) = n := by
        have := Nat.mod_add_div n 128
        omega
      simp [hval]

/-! ### Signed 32-bit integers: zigzag mapping into `Nat` -/

def zigzag (i : Int) : Nat :=
  if 0 ≤ i then 2 * i.toNat else 2 * (-i).toNat - 1

def unzigzag (n : Nat) : Int :=
  if n % 2 = 0 then (n / 2 : Nat) else -((n + 1) / 2 : Nat)

theorem unzigzag_zigzag (i : Int) : unzigzag (zigzag i) = i := by
  unfold zigzag unzigzag
  by_cases h : 0 ≤ i
  · simp only [if_pos h]
    have h2 : 2 * i.toNat % 2 = 0 := by omega
    rw [if_pos h2]
    have : 2 * i.toNat / 2 = i.toNat := by omega
    rw [this]
    exact Int.toNat_of_nonneg h
  · simp only [if_neg h]
    have hpos : 0 < (-i).toNat := by omega
    have hodd : ¬ ((2 * (-i).toNat - 1) % 2 = 0) := by omega
    rw [if_neg hodd]
    have : (2 * (-i).toNat - 1 + 1) / 2 = (-i).toNat := by omega
    rw [this]
    omega

/-! ### Lists of naturals and strings -/

def encodeNats : List Nat → List Nat
  | [] => []
  | n :: ns => encodeVarint n ++ encodeNats ns

def decodeNats : Nat → List Nat → Option (List Nat × List Nat)
  | 0, bs => some ([], bs)
  | k + 1, bs =>
    match decodeVarint bs with
    | some (n, r) =>
      match decodeNats k r with
      | some (ns, r2) => some (n :: ns, r2)
      | none => none
    | none => none

theorem decodeNats_encodeNats (l : List Nat) (rest : List Nat) :
    decodeNats l.length (encodeNats l ++ rest) = some (l, rest) := by
  induction l generalizing rest with
  | nil => simp [encodeNats, decodeNats]
  | cons n ns ih =>
    simp only [encodeNats, List.length_cons, List.append_assoc, decodeNats,
      decodeVarint_encodeVarint, ih]

/-- A length-prefixed list of varints: self-delimiting. -/
def encodeNatList (l : List Nat) : List Nat :=
  encodeVarint l.length ++ encodeNats l

def decodeNatList (bs : List Nat) : Option (List Nat × List Nat) :=
  match decodeVarint bs with
  | some (n, r) => decodeNats n r
  | none => none

theorem decodeNatList_encodeNatList (l : List Nat) (rest : List Nat) :
    decodeNatList (encodeNatList l ++ rest) = some (l, rest) := by
  simp only [encodeNatList, List.append_assoc, decodeNatList,
    decodeVarint_encodeVarint, decodeNats_encodeNats]

/-- Strings are encoded as the length-prefixed list of their characters'
code points. -/
def encodeString (s : String) : List Nat :=
  encodeNatList (s.data.map Char.toNat)

def decodeString (bs : List Nat) : Option (String × List Nat) :=
  match decodeNatList bs with
  | some (ns, r) => some (String.mk (ns.map Char.ofNat), r)
  | none => none

theorem decodeString_encodeString (s : String) (rest : List Nat) :
    decodeString (encodeString s ++ rest) = some (s, rest) := by
  simp only [encodeString, decodeString, decodeNatList_encodeNatList]
  have h : (s.data.map Char.toNat).map Char.ofNat = s.data := by
    rw [List.map_map]
    have hfun : (Char.ofNat ∘ Char.toNat) = id := by
      funext c
      exact Char.ofNat_toNat c
    rw [hfun, List.map_id]
  rw [h]

/-! ### The Value payload type

Modelled from the spec: the protocol's `Value` data model (§3) — a tagged
union of string, 32-bit signed integer, boolean, ordered sequence of Value,
string-keyed map of Value, or raw byte buffer.  The schema declaration
(`MessageValue` in `messages.ts`) is embedded separately below. -/

inductive Value where
  | str : String → Value
  | int32 : Int → Value
  | bool : Bool → Value
  | arr : List Value → Value
  | dict : List (String × Value) → Value
  | buf : List Nat → Value

mutual

/-- Encode a `Value`.  Each variant starts with its field tag (1–6, as in
`MessageValue`); arrays and maps are length-prefixed, hence self-delimiting,
and nest arbitrarily. -/
def encodeValue : Value → List Nat
  | .str s => 1 :: encodeString s
  | .int32 i => 2 :: encodeVarint (zigzag i)
  | .bool b => 3 :: [if b then 1 else 0]
  | .arr vs => 4 :: (encodeVarint vs.length ++ encodeValueList vs)
  | .dict kvs => 5 :: (encodeVarint kvs.length ++ encodeDictList kvs)
  | .buf bs => 6 :: encodeNatList bs

def encodeValueList : List Value → List Nat
  | [] => []
  | v :: vs => encodeValue v ++ encodeValueList vs

def encodeDictList : List (String × Value) → List Nat
  | [] => []
  | (k, v) :: kvs => encodeString k ++ encodeValue v ++ encodeDictList kvs

end

mutual

/-- Decode a `Value`; `fuel` bounds the recursion depth (any fuel at least
the length of the input suffices). -/
def decodeValue : Nat → List Nat → Option (Value × List Nat)
  | 0, _ => none
  | fuel + 1, bs =>
    match bs with
    | 1 :: rest =>
      match decodeString rest with
      | some (s, r) => some (.str s, r)
      | none => none
    | 2 :: rest =>
      match decodeVarint rest with
      | some (n, r) => some (.int32 (unzigzag n), r)
      | none => none
    | 3 :: b :: rest =>
      if b = 1 then some (.bool true, rest)
      else if b = 0 then some (.bool false, rest)
      else none
    | 4 :: rest =>
      match decodeVarint rest with
      | some (n, r) =>
        match decodeValueList fuel n r with
        | some (vs, r2) => some (.arr vs, r2)
        | none => none
      | none => none
    | 5 :: rest =>
      match decodeVarint rest with
      | some (n, r) =>
        match decodeDictList fuel n r with
        | some (kvs, r2) => some (.dict kvs, r2)
        | none => none
      | none => none
    | 6 :: rest =>
      match decodeNatList rest with
      | some (ns, r) => some (.buf ns, r)
      | none => none
    | _ => none
termination_by fuel _ => (fuel, 0)

def decodeValueList : Nat → Nat → List Nat → Option (List Value × List Nat)
  | _, 0, bs => some ([], bs)
  | fuel, n + 1, bs =>
    match decodeValue fuel bs with
    | some (v, r) =>
      match decodeValueList fuel n r with
      | some (vs, r2) => some (v :: vs, r2)
      | none => none
    | none => none
termination_by fuel n _ => (fuel, n + 1)

def decodeDictList : Nat → Nat → List Nat → Option (List (String × Value) × List Nat)
  | _, 0, bs => some ([], bs)
  | fuel, n + 1, bs =>
    match decodeString bs with
    | some (k, r) =>
      match decodeValue fuel r with
      | some (v, r2) =>
        match decodeDictList fuel n r2 with
        | some (kvs, r3) => some ((k, v) :: kvs, r3)
        | none => none
      | none => none
    | none => none
termination_by fuel n _ => (fuel, n + 1)

end

theorem encodeNatList_length_pos (l : List Nat) : 0 < (encodeNatList l).length := by
  have h := encodeVarint_length_pos l.length
  simp only [encodeNatList, List.length_append]
  omega

theorem encodeString_length_pos (s : String) : 0 < (encodeString s).length :=
  encodeNatList_length_pos _

theorem encodeValue_length_pos (v : Value) : 0 < (encodeValue v).length := by
  cases v <;> simp [encodeValue]

/-- Joint round-trip statement for values, value lists and dictionaries:
decoding the encoding (followed by arbitrary trailing bytes) recovers the
value and the trailing bytes, for any fuel at least the encoding's length. -/
theorem decode_encode_value_aux : ∀ fuel : Nat,
    (∀ v : Value, ∀ rest, (encodeValue v).length ≤ fuel →
        decodeValue fuel (encodeValue v ++ rest) = some (v, rest)) ∧
    (∀ vs : List Value, ∀ rest, (encodeValueList vs).length ≤ fuel →
        decodeValueList fuel vs.length (encodeValueList vs ++ rest) = some (vs, rest)) ∧
    (∀ kvs : List (String × Value), ∀ rest, (encodeDictList kvs).length ≤ fuel →
        decodeDictList fuel kvs.length (encodeDictList kvs ++ rest) = some (kvs, rest)) := by
  intro fuel
  induction fuel with
  | zero =>
    refine ⟨?_, ?_, ?_⟩
    · intro v rest h
      have := encodeValue_length_pos v
      omega
    · intro vs rest h
      cases vs with
      | nil => simp [encodeValueList, decodeValueList]
      | cons v vs =>
        have := encodeValue_length_pos v
        simp only [encodeValueList, List.length_append] at h
        omega
    · intro kvs rest h
      cases kvs with
      | nil => simp [encodeDictList, decodeDictList]
      | cons kv kvs =>
        obtain ⟨k, v⟩ := kv
        have := encodeString_length_pos k
        simp only [encodeDictList, List.length_append] at h
        omega
  | succ f ih =>
    obtain ⟨ihP, ihQ, ihR⟩ := ih
    have hP : ∀ v : Value, ∀ rest, (encodeValue v).length ≤ f + 1 →
        decodeValue (f + 1) (encodeValue v ++ rest) = some (v, rest) := by
      intro v rest h
      cases v with
      | str s =>
        simp [encodeValue, decodeValue, List.cons_append, decodeString_encodeString]
      | int32 i =>
        simp [encodeValue, decodeValue, List.cons_append, decodeVarint_encodeVarint,
          unzigzag_zigzag]
      | bool b =>
        cases b <;> simp [encodeValue, decodeValue, List.cons_append]
      | arr vs =>
        have h1 := encodeVarint_length_pos vs.length
        simp only [encodeValue, List.length_cons, List.length_append] at h
        have hlen : (encodeValueList vs).length ≤ f := by omega
        simp only [encodeValue, List.cons_append, List.append_assoc, decodeValue,
          decodeVarint_encodeVarint]
        rw [ihQ vs rest hlen]
      | dict kvs =>
        have h1 := encodeVarint_length_pos kvs.length
        simp only [encodeValue, List.length_cons, List.length_append] at h
        have hlen : (encodeDictList kvs).length ≤ f := by omega
        simp only [encodeValue, List.cons_append, List.append_assoc, decodeValue,
          decodeVarint_encodeVarint]
        rw [ihR kvs rest hlen]
      | buf bs =>
        simp [encodeValue, decodeValue, List.cons_append, decodeNatList_encodeNatList]
    have hQ : ∀ vs : List Value, ∀ rest, (encodeValueList vs).length ≤ f + 1 →
        decodeValueList (f + 1) vs.length (encodeValueList vs ++ rest) = some (vs, rest) := by
      intro vs
      induction vs with
      | nil =>
        intro rest h
        simp [encodeValueList, decodeValueList]
      | cons v vs ihvs =>
        intro rest h
        simp only [encodeValueList, List.length_append] at h
        have hv : (encodeValue v).length ≤ f + 1 := by omega
        have hvs : (encodeValueList vs).length ≤ f + 1 := by omega
        simp only [encodeValueList, List.append_assoc, List.length_cons, decodeValueList,
          hP v (encodeValueList vs ++ rest) hv, ihvs rest hvs]
    have hR : ∀ kvs : List (String × Value), ∀ rest, (encodeDictList kvs).length ≤ f + 1 →
        decodeDictList (f + 1) kvs.length (encodeDictList kvs ++ rest) = some (kvs, rest) := by
      intro kvs
      induction kvs with
      | nil =>
        intro rest h
        simp [encodeDictList, decodeDictList]
      | cons kv kvs ihkvs =>
        obtain ⟨k, v⟩ := kv
        intro rest h
        simp only [encodeDictList, List.length_append] at h
        have hv : (encodeValue v).length ≤ f + 1 := by omega
        have hkvs : (encodeDictList kvs).length ≤ f + 1 := by omega
        simp only [encodeDictList, List.append_assoc, List.length_cons, decodeDictList,
          decodeString_encodeString, hP v (encodeDictList kvs ++ rest) hv, ihkvs rest hkvs]
    exact ⟨hP, hQ, hR⟩

theorem decodeValue_encodeValue (fuel : Nat) (v : Value) (rest : List Nat)
    (h : (encodeValue v).length ≤ fuel) :
    decodeValue fuel (encodeValue v ++ rest) = some (v, rest) :=
  (decode_encode_value_aux fuel).1 v rest h

theorem decodeValueList_encodeValueList (fuel : Nat) (vs : List Value) (rest : List Nat)
    (h : (encodeValueList vs).length ≤ fuel) :
    decodeValueList fuel vs.length (encodeValueList vs ++ rest) = some (vs, rest) :=
  (decode_encode_value_aux fuel).2.1 vs rest h

/-! ### The Envelope data model

Modelled from the spec (§3): Request, Response, Event, Error and the Envelope
whose body is exactly one of the four.  Field names and numeric tags follow
the schema declarations in `messages.ts`. -/

structure Request where
  method : String
  args : List Value

structure Response where
  requestId : Nat
  result : Value

structure Event where
  event : String
  args : List Value

structure Error where
  failedMessageId : Nat
  code : Int
  description : String
  details : Value

/-- The body union: request/response/event/error share wire tag 3. -/
inductive Body where
  | request : Request → Body
  | response : Response → Body
  | event : Event → Body
  | error : Error → Body

structure Envelope where
  id : Nat
  service : String
  body : Body

/-! ### Envelope Codec

Modelled from the spec (§4.1, §6): fields are written in tag order, each
preceded by its numeric tag byte (id=1, service=2, body=3; the four body
variants share tag 3 and are discriminated by a variant byte). -/

def encodeRequest (r : Request) : List Nat :=
  1 :: encodeString r.method ++ 2 :: (encodeVarint r.args.length ++ encodeValueList r.args)

def encodeResponse (r : Response) : List Nat :=
  1 :: encodeVarint r.requestId ++ 2 :: encodeValue r.result

def encodeEvent (e : Event) : List Nat :=
  1 :: encodeString e.event ++ 2 :: (encodeVarint e.args.length ++ encodeValueList e.args)

def encodeError (er : Error) : List Nat :=
  1 :: encodeVarint er.failedMessageId ++ 2 :: encodeVarint (zigzag er.code) ++
    3 :: encodeString er.description ++ 4 :: encodeValue er.details

def encodeBody : Body → List Nat
  | .request r => 1 :: encodeRequest r
  | .response r => 2 :: encodeResponse r
  | .event e => 3 :: encodeEvent e
  | .error er => 4 :: encodeError er

/-- `encode(Envelope) -> bytes`. -/
def encode (e : Envelope) : List Nat :=
  1 :: encodeVarint e.id ++ 2 :: encodeString e.service ++ 3 :: encodeBody e.body

def decodeRequest (fuel : Nat) (bs : List Nat) : Option (Request × List Nat) :=
  match bs with
  | 1 :: r0 =>
    match decodeString r0 with
    | some (m, r1) =>
      match r1 with
      | 2 :: r2 =>
        match decodeVarint r2 with
        | some (n, r3) =>
          match decodeValueList fuel n r3 with
          | some (args, r4) => some (⟨m, args⟩, r4)
          | none => none
        | none => none
      | _ => none
    | none => none
  | _ => none

def decodeResponse (fuel : Nat) (bs : List Nat) : Option (Response × List Nat) :=
  match bs with
  | 1 :: r0 =>
    match decodeVarint r0 with
    | some (i, r1) =>
      match r1 with
      | 2 :: r2 =>
        match decodeValue fuel r2 with
        | some (v, r3) => some (⟨i, v⟩, r3)
        | none => none
      | _ => none
    | none => none
  | _ => none

def decodeEvent (fuel : Nat) (bs : List Nat) : Option (Event × List Nat) :=
  match bs with
  | 1 :: r0 =>
    match decodeString r0 with
    | some (nm, r1) =>
      match r1 with
      | 2 :: r2 =>
        match decodeVarint r2 with
        | some (n, r3) =>
          match decodeValueList fuel n r3 with
          | some (args, r4) => some (⟨nm, args⟩, r4)
          | none => none
        | none => none
      | _ => none
    | none => none
  | _ => none

def decodeError (fuel : Nat) (bs : List Nat) : Option (Error × List Nat) :=
  match bs with
  | 1 :: r0 =>
    match decodeVarint r0 with
    | some (i, r1) =>
      match r1 with
      | 2 :: r2 =>
        match decodeVarint r2 with
        | some (c, r3) =>
          match r3 with
          | 3 :: r4 =>
            match decodeString r4 with
            | some (d, r5) =>
              match r5 with
              | 4 :: r6 =>
                match decodeValue fuel r6 with
                | some (v, r7) => some (⟨i, unzigzag c, d, v⟩, r7)
                | none => none
              | _ => none
            | none => none
          | _ => none
        | none => none
      | _ => none
    | none => none
  | _ => none

def decodeBody (fuel : Nat) (bs : List Nat) : Option (Body × List Nat) :=
  match bs with
  | 1 :: r =>
    match decodeRequest fuel r with
    | some (x, r2) => some (.request x, r2)
    | none => none
  | 2 :: r =>
    match decodeResponse fuel r with
    | some (x, r2) => some (.response x, r2)
    | none => none
  | 3 :: r =>
    match decodeEvent fuel r with
    | some (x, r2) => some (.event x, r2)
    | none => none
  | 4 :: r =>
    match decodeError fuel r with
    | some (x, r2) => some (.error x, r2)
    | none => none
  | _ => none

def decodeEnvelope (fuel : Nat) (bs : List Nat) : Option (Envelope × List Nat) :=
  match bs with
  | 1 :: r0 =>
    match decodeVarint r0 with
    | some (i, r1) =>
      match r1 with
      | 2 :: r2 =>
        match decodeString r2 with
        | some (svc, r3) =>
          match r3 with
          | 3 :: r4 =>
            match decodeBody fuel r4 with
            | some (b, r5) => some (⟨i, svc, b⟩, r5)
            | none => none
          | _ => none
        | none => none
      | _ => none
    | none => none
  | _ => none

/-- `decode(bytes) -> Envelope`: decodes one envelope consuming the whole
input; any failure (`MalformedMessage`) is `none`. -/
def decode (bs : List Nat) : Option Envelope :=
  match decodeEnvelope (bs.length + 1) bs with
  | some (e, []) => some e
  | _ => none

theorem decodeRequest_encodeRequest (fuel : Nat) (r : Request) (rest : List Nat)
    (h : (encodeRequest r).length ≤ fuel) :
    decodeRequest fuel (encodeRequest r ++ rest) = some (r, rest) := by
  have hargs : (encodeValueList r.args).length ≤ fuel := by
    simp only [encodeRequest, List.length_cons, List.length_append] at h
    omega
  simp only [encodeRequest, List.cons_append, List.append_assoc, decodeRequest,
    decodeString_encodeString, decodeVarint_encodeVarint,
    decodeValueList_encodeValueList fuel r.args rest hargs]

theorem decodeResponse_encodeResponse (fuel : Nat) (r : Response) (rest : List Nat)
    (h : (encodeResponse r).length ≤ fuel) :
    decodeResponse fuel (encodeResponse r ++ rest) = some (r, rest) := by
  have hres : (encodeValue r.result).length ≤ fuel := by
    simp only [encodeResponse, List.length_cons, List.length_append] at h
    omega
  simp only [encodeResponse, List.cons_append, List.append_assoc, decodeResponse,
    decodeVarint_encodeVarint, decodeValue_encodeValue fuel r.result rest hres]

theorem decodeEvent_encodeEvent (fuel : Nat) (e : Event) (rest : List Nat)
    (h : (encodeEvent e).length ≤ fuel) :
    decodeEvent fuel (encodeEvent e ++ rest) = some (e, rest) := by
  have hargs : (encodeValueList e.args).length ≤ fuel := by
    simp only [encodeEvent, List.length_cons, List.length_append] at h
    omega
  simp only [encodeEvent, List.cons_append, List.append_assoc, decodeEvent,
    decodeString_encodeString, decodeVarint_encodeVarint,
    decodeValueList_encodeValueList fuel e.args rest hargs]

theorem decodeError_encodeError (fuel : Nat) (er : Error) (rest : List Nat)
    (h : (encodeError er).length ≤ fuel) :
    decodeError fuel (encodeError er ++ rest) = some (er, rest) := by
  have hdet : (encodeValue er.details).length ≤ fuel := by
    simp only [encodeError, List.length_cons, List.length_append] at h
    omega
  simp only [encodeError, List.cons_append, List.append_assoc, decodeError,
    decodeVarint_encodeVarint, decodeString_encodeString, unzigzag_zigzag,
    decodeValue_encodeValue fuel er.details rest hdet]

theorem decodeBody_encodeBody (fuel : Nat) (b : Body) (rest : List Nat)
    (h : (encodeBody b).length ≤ fuel) :
    decodeBody fuel (encodeBody b ++ rest) = some (b, rest) := by
  cases b with
  | request r =>
    have hr : (encodeRequest r).length ≤ fuel := by
      simp only [encodeBody, List.length_cons] at h
      omega
    simp only [encodeBody, List.cons_append, decodeBody,
      decodeRequest_encodeRequest fuel r rest hr]
  | response r =>
    have hr : (encodeResponse r).length ≤ fuel := by
      simp only [encodeBody, List.length_cons] at h
      omega
    simp only [encodeBody, List.cons_append, decodeBody,
      decodeResponse_encodeResponse fuel r rest hr]
  | event e =>
    have he : (encodeEvent e).length ≤ fuel := by
      simp only [encodeBody, List.length_cons] at h
      omega
    simp only [encodeBody, List.cons_append, decodeBody,
      decodeEvent_encodeEvent fuel e rest he]
  | error er =>
    have her : (encodeError er).length ≤ fuel := by
      simp only [encodeBody, List.length_cons] at h
      omega
    simp only [encodeBody, List.cons_append, decodeBody,
      decodeError_encodeError fuel er rest her]

theorem decodeEnvelope_encode (fuel : Nat) (e : Envelope) (rest : List Nat)
    (h : (encode e).length ≤ fuel) :
    decodeEnvelope fuel (encode e ++ rest) = some (e, rest) := by
  have hb : (encodeBody e.body).length ≤ fuel := by
    simp only [encode, List.length_cons, List.length_append] at h
    omega
  simp only [encode, List.cons_append, List.append_assoc, decodeEnvelope,
    decodeVarint_encodeVarint, decodeString_encodeString,
    decodeBody_encodeBody fuel e.body rest hb]

/-- Claim C1: For every Envelope value `e`, including those whose Value payloads
contain nested arrays of Value and maps from string to Value, decoding the
encoding of `e` yields `e` again: `decode (encode e) = some e`. -/
theorem decode_encode_roundtrip (e : Envelope) : decode (encode e) = some e := by
  have hdec := decodeEnvelope_encode ((encode e).length + 1) e [] (by omega)
  rw [List.append_nil] at hdec
  simp only [decode, hdec]

/-! ### Frame Reader

Modelled from the spec (§4.2, §6): frames are `[4-byte length prefix][payload]`
(big-endian prefix counting only the payload bytes).  `feed` appends the
arriving bytes to the accumulation buffer and repeatedly slices out complete
frames, decoding each into an envelope; an incomplete tail stays buffered. -/

/-- Big-endian 32-bit length prefix. -/
def frameLen (hdr : List Nat) : Nat :=
  match hdr with
  | [b0, b1, b2, b3] => ((b0 * 256 + b1) * 256 + b2) * 256 + b3
  | _ => 0

/-- Slice every complete `[4-byte length][payload]` frame off the front of
the buffer; return the payloads and the incomplete leftover. -/
def extractFrames (buf : List Nat) : List (List Nat) × List Nat :=
  if h4 : buf.length < 4 then ([], buf)
  else
    let len := frameLen (buf.take 4)
    if hlen : buf.length < 4 + len then ([], buf)
    else
      let payload := (buf.drop 4).take len
      let p := extractFrames (buf.drop (4 + len))
      (payload :: p.1, p.2)
termination_by buf.length
decreasing_by
  simp only [List.length_drop]
  omega

/-- `feed(bytes)`: append the chunk to the accumulation buffer and extract
all complete frames. -/
def feed (st chunk : List Nat) : List (List Nat) × List Nat :=
  extractFrames (st ++ chunk)

/-- Feed a list of chunks one at a time, collecting all emitted frames. -/
def feedAll (st : List Nat) : List (List Nat) → List (List Nat) × List Nat
  | [] => ([], st)
  | c :: cs =>
    let p := feed st c
    let q := feedAll p.2 cs
    (p.1 ++ q.1, q.2)

theorem extractFrames_of_short (buf : List Nat) (h : buf.length < 4) :
    extractFrames buf = ([], buf) := by
  rw [extractFrames]
  simp [h]

theorem extractFrames_of_incomplete (buf : List Nat) (h4 : ¬ buf.length < 4)
    (h : buf.length < 4 + frameLen (buf.take 4)) :
    extractFrames buf = ([], buf) := by
  rw [extractFrames]
  simp [h4, h]

theorem extractFrames_of_complete (buf : List Nat) (h4 : ¬ buf.length < 4)
    (h : ¬ buf.length < 4 + frameLen (buf.take 4)) :
    extractFrames buf =
      ((buf.drop 4).take (frameLen (buf.take 4)) ::
          (extractFrames (buf.drop (4 + frameLen (buf.take 4)))).1,
        (extractFrames (buf.drop (4 + frameLen (buf.take 4)))).2) := by
  rw [extractFrames]
  simp [h4, h]

/-- Feeding the buffer additional bytes first drains the frames already
complete in it, then proceeds on the leftover: `extractFrames` is
compositional over concatenation. -/
theorem extractFrames_append (buf ext : List Nat) :
    extractFrames (buf ++ ext) =
      ((extractFrames buf).1 ++ (extractFrames ((extractFrames buf).2 ++ ext)).1,
        (extractFrames ((extractFrames buf).2 ++ ext)).2) := by
  induction buf using extractFrames.induct with
  | case1 buf h4 =>
    rw [extractFrames_of_short buf h4]
    simp
  | case2 buf h4 len hlen =>
    rw [extractFrames_of_incomplete buf h4 hlen]
    simp
  | case3 buf h4 len hlen ih =>
    have h4' : ¬ (buf ++ ext).length < 4 := by
      simp only [List.length_append]
      omega
    have htake : (buf ++ ext).take 4 = buf.take 4 :=
      List.take_append_of_le_length (by omega)
    have hlen' : ¬ (buf ++ ext).length < 4 + frameLen ((buf ++ ext).take 4) := by
      rw [htake]
      simp only [List.length_append]
      omega
    rw [extractFrames_of_complete _ h4' hlen',
      extractFrames_of_complete buf h4 hlen]
    rw [htake]
    have hdrop4 : (buf ++ ext).drop 4 = buf.drop 4 ++ ext :=
      List.drop_append_of_le_length (by omega)
    have hpayload : ((buf ++ ext).drop 4).take (frameLen (buf.take 4)) =
        (buf.drop 4).take (frameLen (buf.take 4)) := by
      rw [hdrop4]
      exact List.take_append_of_le_length (by simp only [List.length_drop]; omega)
    have hrest : (buf ++ ext).drop (4 + frameLen (buf.take 4)) =
        buf.drop (4 + frameLen (buf.take 4)) ++ ext :=
      List.drop_append_of_le_length (by omega)
    rw [hpayload, hrest]
    rw [ih]
    simp

/-- The leftover after extraction holds no complete frame: extracting from it
again emits nothing. -/
theorem extractFrames_leftover (buf : List Nat) :
    extractFrames (extractFrames buf).2 = ([], (extractFrames buf).2) := by
  induction buf using extractFrames.induct with
  | case1 buf h4 =>
    rw [extractFrames_of_short buf h4, extractFrames_of_short buf h4]
  | case2 buf h4 len hlen =>
    rw [extractFrames_of_incomplete buf h4 hlen,
      extractFrames_of_incomplete buf h4 hlen]
  | case3 buf h4 len hlen ih =>
    rw [extractFrames_of_complete buf h4 hlen]
    exact ih

/-- Chunk-by-chunk feeding from a drained buffer equals one whole feed. -/
theorem feedAll_eq_extract (chunks : List (List Nat)) :
    ∀ st : List Nat, extractFrames st = ([], st) →
      feedAll st chunks = extractFrames (st ++ chunks.flatten) := by
  induction chunks with
  | nil =>
    intro st hst
    simp only [feedAll, List.flatten_nil, List.append_nil, hst]
  | cons c cs ih =>
    intro st _
    have hq := ih (extractFrames (st ++ c)).2 (extractFrames_leftover (st ++ c))
    simp only [feedAll, feed, hq, List.flatten_cons, ← List.append_assoc]
    rw [extractFrames_append (st ++ c) cs.flatten]

/-- Claim C2: For every byte sequence and every way of splitting it into an ordered
list of chunks, feeding the chunks one by one to the Frame Reader emits
exactly the same sequence of envelopes, in the same order, as feeding the
entire byte sequence in a single feed call. -/
theorem feed_chunks_eq_feed_whole (chunks : List (List Nat)) :
    ((feedAll [] chunks).1).map decode = ((feed [] chunks.flatten).1).map decode := by
  rw [feedAll_eq_extract chunks [] (extractFrames_of_short [] (by simp))]
  rfl

/-! ### The schema declarations of `messages.ts`

Each `@Field.d(tag, type)` / `@MapField.d(tag, ...)` decorator contributes a
(field name, numeric tag) pair to its message class.  The tables below record
those declarations verbatim. -/

def messageValueFields : List (String × Nat) :=
  [("stringValue", 1), ("int32Value", 2), ("boolValue", 3),
    ("arrayValue", 4), ("dictionaryValue", 5), ("bufferValue", 6)]

def requestMessageFields : List (String × Nat) :=
  [("method", 1), ("args", 2)]

def responseMessageFields : List (String × Nat) :=
  [("requestId", 1), ("result", 2)]

def eventMessageFields : List (String × Nat) :=
  [("event", 1), ("args", 2)]

def errorMessageFields : List (String × Nat) :=
  [("failedMessageId", 1), ("code", 2), ("description", 3), ("details", 4)]

def messageEnvelopeFields : List (String × Nat) :=
  [("id", 1), ("service", 2),
    ("request", 3), ("response", 3), ("event", 3), ("error", 3)]

/-- Claim C4: The Envelope wire schema assigns numeric tag 1 to the id field,
tag 2 to the service field, and a single shared tag 3 to the
request/response/event/error body union. -/
theorem envelope_field_tags :
    messageEnvelopeFields.lookup "id" = some 1 ∧
    messageEnvelopeFields.lookup "service" = some 2 ∧
    messageEnvelopeFields.lookup "request" = some 3 ∧
    messageEnvelopeFields.lookup "response" = some 3 ∧
    messageEnvelopeFields.lookup "event" = some 3 ∧
    messageEnvelopeFields.lookup "error" = some 3 := by
  refine ⟨rfl, rfl, rfl, rfl, rfl, rfl⟩

/-! ### The message instance types of `messages.ts`

A TypeScript `MessageValue` / `MessageEnvelope` instance is created by
`new T(properties)`: every declared singular field is a property that may or
may not be set (modelled `Option`); `repeated` fields default to an empty
list.  Nothing in the declarations forces any body field to be set, or only
one of them. -/

inductive MessageValue where
  | mk : Option String → Option Int → Option Bool →
      Option (List MessageValue) → Option (List (String × MessageValue)) →
      Option (List Nat) → MessageValue

def MessageValue.stringValue : MessageValue → Option String
  | .mk s _ _ _ _ _ => s

def MessageValue.int32Value : MessageValue → Option Int
  | .mk _ i _ _ _ _ => i

def MessageValue.boolValue : MessageValue → Option Bool
  | .mk _ _ b _ _ _ => b

def MessageValue.arrayValue : MessageValue → Option (List MessageValue)
  | .mk _ _ _ a _ _ => a

def MessageValue.dictionaryValue : MessageValue → Option (List (String × MessageValue))
  | .mk _ _ _ _ d _ => d

def MessageValue.bufferValue : MessageValue → Option (List Nat)
  | .mk _ _ _ _ _ b => b

/-- How many of the six variant fields of a `MessageValue` instance are
populated. -/
def MessageValue.populatedCount (m : MessageValue) : Nat :=
  (if m.stringValue.isSome then 1 else 0) +
  (if m.int32Value.isSome then 1 else 0) +
  (if m.boolValue.isSome then 1 else 0) +
  (if m.arrayValue.isSome then 1 else 0) +
  (if m.dictionaryValue.isSome then 1 else 0) +
  (if m.bufferValue.isSome then 1 else 0)

def exactlyOneValueVariant (m : MessageValue) : Prop :=
  m.populatedCount = 1

structure RequestMessage where
  method : Option String
  args : List MessageValue

structure ResponseMessage where
  requestId : Option Nat
  result : Option MessageValue

structure EventMessage where
  event : Option String
  args : List MessageValue

structure ErrorMessage where
  failedMessageId : Option Nat
  code : Option Int
  description : Option String
  details : Option MessageValue

structure MessageEnvelope where
  id : Option Nat
  service : Option String
  request : Option RequestMessage
  response : Option ResponseMessage
  event : Option EventMessage
  error : Option ErrorMessage

/-- How many of the four tag-3 body fields of a `MessageEnvelope` instance
are populated. -/
def MessageEnvelope.bodyCount (e : MessageEnvelope) : Nat :=
  (if e.request.isSome then 1 else 0) +
  (if e.response.isSome then 1 else 0) +
  (if e.event.isSome then 1 else 0) +
  (if e.error.isSome then 1 else 0)

def exactlyOneBody (e : MessageEnvelope) : Prop :=
  e.bodyCount = 1

/-- Claim C6, counterexample: `new MessageValue()` sets none of the six
variant fields, so the schema's instance type admits a Value populating zero
variants — the claimed per-instance invariant fails on it. -/
theorem messageValue_zero_variants :
    ¬ exactlyOneValueVariant (.mk none none none none none none) := by
  simp [exactlyOneValueVariant, MessageValue.populatedCount, MessageValue.stringValue,
    MessageValue.int32Value, MessageValue.boolValue, MessageValue.arrayValue,
    MessageValue.dictionaryValue, MessageValue.bufferValue]

/-- Claim C5, counterexample: `new MessageEnvelope()` sets none of the four
tag-3 body fields, so the schema's instance type admits an Envelope carrying
zero body variants — the claimed per-instance invariant fails on it. -/
theorem messageEnvelope_zero_bodies :
    ¬ exactlyOneBody ⟨none, none, none, none, none, none⟩ := by
  simp [exactlyOneBody, MessageEnvelope.bodyCount]

/-! ### Protocol values map onto the schema with exactly one variant set -/

mutual

def Value.toMessage : Value → MessageValue
  | .str s => .mk (some s) none none none none none
  | .int32 i => .mk none (some i) none none none none
  | .bool b => .mk none none (some b) none none none
  | .arr vs => .mk none none none (some (valueListToMessage vs)) none none
  | .dict kvs => .mk none none none none (some (dictToMessage kvs)) none
  | .buf bs => .mk none none none none none (some bs)

def valueListToMessage : List Value → List MessageValue
  | [] => []
  | v :: vs => v.toMessage :: valueListToMessage vs

def dictToMessage : List (String × Value) → List (String × MessageValue)
  | [] => []
  | (k, v) :: kvs => (k, v.toMessage) :: dictToMessage kvs

end

def Request.toMessage (r : Request) : RequestMessage :=
  ⟨some r.method, valueListToMessage r.args⟩

def Response.toMessage (r : Response) : ResponseMessage :=
  ⟨some r.requestId, some r.result.toMessage⟩

def Event.toMessage (e : Event) : EventMessage :=
  ⟨some e.event, valueListToMessage e.args⟩

def Error.toMessage (er : Error) : ErrorMessage :=
  ⟨some er.failedMessageId, some er.code, some er.description, some er.details.toMessage⟩

/-- A protocol envelope (whose body is one of the four variants by
construction) written into the schema's instance type. -/
def Envelope.toMessage (e : Envelope) : MessageEnvelope :=
  match e.body with
  | .request r => ⟨some e.id, some e.service, some r.toMessage, none, none, none⟩
  | .response r => ⟨some e.id, some e.service, none, some r.toMessage, none, none⟩
  | .event ev => ⟨some e.id, some e.service, none, none, some ev.toMessage, none⟩
  | .error er => ⟨some e.id, some e.service, none, none, none, some er.toMessage⟩

/-- Claim C5 (amended): the schema's `MessageEnvelope` instance type does not
itself enforce the body invariant (an instance may populate zero — or several
— of the four tag-3 fields); every envelope actually carried by the protocol,
i.e. every image of the protocol's Envelope data model, populates exactly one
of request/response/event/error. -/
theorem envelope_toMessage_exactlyOneBody (e : Envelope) :
    exactlyOneBody e.toMessage := by
  obtain ⟨i, s, b⟩ := e
  cases b <;> rfl

/-- Claim C6 (amended): the schema's `MessageValue` instance type does not
itself enforce the variant invariant (an instance may populate zero — or
several — of the six fields); every Value actually carried by the protocol,
i.e. every image of the protocol's Value data model, populates exactly one of
its six variants. -/
theorem value_toMessage_exactlyOneVariant (v : Value) :
    exactlyOneValueVariant v.toMessage := by
  cases v <;> rfl

/-! ### Dispatcher / Correlation Table

Modelled from the spec (§4.4, §7): the table maps outstanding request ids to
pending completion handles (modelled by the list of pending ids).  A Response
resolves the pending call with the carried correlation id, an Error envelope
rejects it — both remove the entry on first resolution; unknown ids are
discarded.  A caller-side timeout also evicts its entry.  `cancelAll`
(connection loss) rejects every still-pending call and clears the table. -/

inductive DispatcherInput where
  | envelope : Envelope → DispatcherInput
  | timeout : Nat → DispatcherInput

/-- Correlation id an inbound envelope body resolves: a Response carries
`requestId`, an Error carries `failedMessageId`; Request and Event bodies
resolve no pending call. -/
def resolutionId : Body → Option Nat
  | .response r => some r.requestId
  | .error er => some er.failedMessageId
  | _ => none

/-- Resolve the pending call `i` if present: remove the entry and report one
resolution; otherwise (stale/unknown id) discard. -/
def resolveOne (tbl : List Nat) (i : Nat) : List Nat × List Nat :=
  if i ∈ tbl then (tbl.erase i, [i]) else (tbl, [])

/-- One dispatcher step: new table plus the ids resolved by this input. -/
def onInput (tbl : List Nat) : DispatcherInput → List Nat × List Nat
  | .envelope e =>
    match resolutionId e.body with
    | some i => resolveOne tbl i
    | none => (tbl, [])
  | .timeout i => resolveOne tbl i

def processAll (tbl : List Nat) : List DispatcherInput → List Nat × List Nat
  | [] => (tbl, [])
  | inp :: inps =>
    let p := onInput tbl inp
    let q := processAll p.1 inps
    (q.1, p.2 ++ q.2)

/-- `cancelAll`: reject every still-pending call and clear the table. -/
def cancelAll (tbl : List Nat) : List Nat × List Nat :=
  ([], tbl)

/-- All resolutions over a connection's life: the inbound traffic is
processed, then the connection is lost and `cancelAll` runs. -/
def resolutionsToClose (tbl : List Nat) (inps : List DispatcherInput) : List Nat :=
  let p := processAll tbl inps
  p.2 ++ (cancelAll p.1).2

theorem resolveOne_count (tbl : List Nat) (j i : Nat) :
    ((resolveOne tbl j).2).count i + ((resolveOne tbl j).1).count i = tbl.count i := by
  unfold resolveOne
  by_cases hj : j ∈ tbl
  · by_cases hij : i = j
    · subst hij
      have hcnt : 0 < tbl.count i := List.count_pos_iff.mpr hj
      simp only [if_pos hj, List.count_erase_self, List.count_cons_self, List.count_nil]
      omega
    · have h1 : ([j] : List Nat).count i = 0 := by
        simp [List.count_cons, hij]
      simp only [if_pos hj, h1, List.count_erase_of_ne hij, Nat.zero_add]
  · simp [hj]

theorem onInput_count (tbl : List Nat) (inp : DispatcherInput) (i : Nat) :
    ((onInput tbl inp).2).count i + ((onInput tbl inp).1).count i = tbl.count i := by
  cases inp with
  | envelope e =>
    cases h : resolutionId e.body with
    | none => simp [onInput, h]
    | some j => simpa [onInput, h] using resolveOne_count tbl j i
  | timeout j => simpa [onInput] using resolveOne_count tbl j i

/-- Conservation: across the whole life of the connection, the number of
resolutions of id `i` equals its multiplicity in the initial table. -/
theorem resolutionsToClose_count (inps : List DispatcherInput) :
    ∀ (tbl : List Nat) (i : Nat),
      (resolutionsToClose tbl inps).count i = tbl.count i := by
  induction inps with
  | nil =>
    intro tbl i
    simp [resolutionsToClose, processAll, cancelAll]
  | cons inp inps ih =>
    intro tbl i
    have hstep := onInput_count tbl inp i
    have hrec := ih (onInput tbl inp).1 i
    simp only [resolutionsToClose, processAll, cancelAll, List.count_append] at hrec ⊢
    omega

/-- Claim C3: Every Pending Call created by sending a request is resolved
exactly once — by a matching Response, a matching Error envelope, a
caller-side timeout, or connection loss — and never more than once; the
Correlation Table enforces this by removing the entry on first resolution. -/
theorem pending_resolved_exactly_once (tbl : List Nat) (inps : List DispatcherInput)
    (i : Nat) (hmem : i ∈ tbl) (hnd : tbl.Nodup) :
    (resolutionsToClose tbl inps).count i = 1 := by
  rw [resolutionsToClose_count inps tbl i]
  exact List.count_eq_one_of_mem hnd hmem

/-- Witness: a table with pending id 5 receiving two duplicate Responses for
id 5 and then losing the connection resolves id 5 exactly once. -/
theorem pending_resolved_exactly_once_witness :
    (5 : Nat) ∈ [5] ∧ ([5] : List Nat).Nodup ∧
      (resolutionsToClose [5]
        [.envelope ⟨9, "file", .response ⟨5, .bool true⟩⟩,
         .envelope ⟨9, "file", .response ⟨5, .bool true⟩⟩]).count 5 = 1 :=
  ⟨by decide, by decide,
    pending_resolved_exactly_once [5]
      [.envelope ⟨9, "file", .response ⟨5, .bool true⟩⟩,
       .envelope ⟨9, "file", .response ⟨5, .bool true⟩⟩]
      5 (by decide) (by decide)⟩

/-! ### Sequence Counter

Modelled from the spec (§3, §8): a monotonically increasing counter whose
successor wraps to 0 after `2^53 - 1`; at wraparound (and generally) an id
still pending must be skipped, so a freshly issued id never collides with a
concurrently outstanding request. -/

def maxSafeId : Nat := 2 ^ 53

/-- Search forward from candidate `c` (modulo `2^53`) for an id not still
pending; `k` bounds the number of candidates tried. -/
def nextIdFrom (pending : List Nat) : Nat → Nat → Option Nat
  | _, 0 => none
  | c, k + 1 =>
    if c % maxSafeId ∈ pending then nextIdFrom pending (c + 1) k
    else some (c % maxSafeId)

/-- Issue the next sequence id: the counter's successor modulo `2^53`,
skipping ids still pending (`pending.length + 1` candidates always contain a
free one when the pending ids are distinct). -/
def nextId (counter : Nat) (pending : List Nat) : Option Nat :=
  nextIdFrom pending (counter + 1) (pending.length + 1)

theorem nextIdFrom_not_pending (pending : List Nat) :
    ∀ (k c i : Nat), nextIdFrom pending c k = some i → i ∉ pending := by
  intro k
  induction k with
  | zero => intro c i h; simp [nextIdFrom] at h
  | succ k ih =>
    intro c i h
    rw [nextIdFrom] at h
    by_cases hc : c % maxSafeId ∈ pending
    · rw [if_pos hc] at h
      exact ih (c + 1) i h
    · rw [if_neg hc] at h
      cases h
      exact hc

/-- Claim C7: The Sequence Counter wraps to 0 after reaching `2^53 - 1`: the
id issued after id `2^53 - 1` is 0; if an id (such as 0) is still pending at
wraparound time it is skipped; and an issued id is never one of the
concurrently outstanding (pending) ids. -/
theorem sequence_wraparound :
    nextId (2 ^ 53 - 1) [] = some 0 ∧
    nextId (2 ^ 53 - 1) [0] = some 1 ∧
    ∀ (counter : Nat) (pending : List Nat) (i : Nat),
      nextId counter pending = some i → i ∉ pending := by
  refine ⟨?_, ?_, ?_⟩
  · decide
  · decide
  · intro counter pending i h
    exact nextIdFrom_not_pending pending (pending.length + 1) (counter + 1) i h

/-- Witness: issuing an id with counter 4 and pending id 5 yields 6, which is
indeed not among the pending ids. -/
theorem sequence_wraparound_witness :
    nextId 4 [5] = some 6 ∧ (6 : Nat) ∉ [5] :=
  ⟨by decide, sequence_wraparound.2.2 4 [5] 6 (by decide)⟩

end RemoteProtocol

namespace RemoteFileService

/-! ### `FileService` of `remoteFileService.ts`

A `TPromise` outcome is modelled as `Except`: fulfilled (`ok`) or rejected
(`error`).  `promise.then(onFulfilled, onRejected)` yields a promise
fulfilled with the applied handler's result. -/

def FileError := String

structure IFileStat where
  resource : String
  name : String
  isDirectory : Bool

/-- `p.then(onFulfilled, onRejected)` for handlers returning plain values:
whichever handler runs, its result fulfils the new promise. -/
def promiseThen (p : Except ε α) (onFulfilled : α → β) (onRejected : ε → β) :
    Except ε β :=
  match p with
  | .ok a => .ok (onFulfilled a)
  | .error e => .ok (onRejected e)

/-- `existsFile` as written in `remoteFileService.ts:127-129`:
`this.resolveFile(resource).then(() => true, () => false)`.  `resolveFile`
is a TODO stub in the source, so its outcome for the given resource is taken
as a parameter. -/
def existsFile (resolveFileResult : Except FileError IFileStat) :
    Except FileError Bool :=
  promiseThen resolveFileResult (fun _ => true) (fun _ => false)

/-- Claim C8: `existsFile(resource)` resolves to true when
`resolveFile(resource)` succeeds and resolves to false when it fails, and
never propagates the failure. -/
theorem existsFile_resolves (r : Except FileError IFileStat) :
    (∀ s, r = .ok s → existsFile r = .ok true) ∧
    (∀ e, r = .error e → existsFile r = .ok false) ∧
    ∀ e, existsFile r ≠ .error e := by
  cases r <;> simp [existsFile, promiseThen]

/-- Witness: a successful resolve makes `existsFile` resolve to true. -/
theorem existsFile_resolves_witness :
    existsFile (.ok ⟨"file:///a.txt", "a.txt", false⟩) = .ok true :=
  (existsFile_resolves (.ok ⟨"file:///a.txt", "a.txt", false⟩)).1
    ⟨"file:///a.txt", "a.txt", false⟩ rfl

/-! ### Paths and URIs

`paths.join` / `paths.dirname` (Node's posix path module) and `uri.file`
are external collaborators of `remoteFileService.ts`; they are modelled
here: `dirname` mirrors Node's posix dirname algorithm, `joinPaths` joins
two segments with a separator and normalises `.`, `..`, and repeated
separators, and `URI.file` builds a file URI from a filesystem path. -/

structure URI where
  fsPath : String
deriving DecidableEq

def URI.file (p : String) : URI := ⟨p⟩

/-- Find Node dirname's `end` index: scanning from the back (excluding index
0), the first `/` seen after a non-separator character. -/
def dirEnd (cs : List Char) : Nat → Bool → Option Nat
  | 0, _ => none
  | i + 1, matchedSlash =>
    if cs.getD (i + 1) ' ' = '/' then
      if matchedSlash then dirEnd cs i true else some (i + 1)
    else dirEnd cs i false

/-- Node `path.posix.dirname`. -/
def dirname (p : String) : String :=
  let cs := p.data
  if cs.length = 0 then "."
  else
    let hasRoot := cs.headD ' ' = '/'
    match dirEnd cs (cs.length - 1) true with
    | none => if hasRoot then "/" else "."
    | some e => if hasRoot ∧ e = 1 then "//" else String.mk (cs.take e)

/-- Resolve `.` and `..` segments against a reversed stack of kept segments;
`isAbs` tells whether `..` at the root is dropped (absolute) or kept
(relative). -/
def normSegs (isAbs : Bool) : List String → List String → List String
  | stack, [] => stack.reverse
  | stack, seg :: rest =>
    if seg = "" ∨ seg = "." then normSegs isAbs stack rest
    else if seg = ".." then
      match stack with
      | [] => if isAbs then normSegs isAbs [] rest else normSegs isAbs [".."] rest
      | top :: stack2 =>
        if top = ".." then normSegs isAbs (".." :: top :: stack2) rest
        else normSegs isAbs stack2 rest
    else normSegs isAbs (seg :: stack) rest

/-- Split a character list into the `/`-separated segments. -/
def splitSlash : List Char → List Char → List String
  | acc, [] => [String.mk acc.reverse]
  | acc, c :: rest =>
    if c = '/' then String.mk acc.reverse :: splitSlash [] rest
    else splitSlash (c :: acc) rest

/-- Node `path.posix.join` restricted to two arguments: concatenate with a
separator and normalise, mirroring Node's `normalize`: resolve `.`/`..` and
repeated separators, keep the root slash, and preserve a trailing separator
(`if (trailingSeparator) path += '/'`); an empty relative result is `.`, or
`./` when the input ended with a separator. -/
def joinPaths (a b : String) : String :=
  let joined := if a = "" then b else if b = "" then a else a ++ "/" ++ b
  if joined = "" then "."
  else
    let isAbs := joined.data.headD ' ' = '/'
    let trailingSep := joined.data.getLastD ' ' = '/'
    let core := String.intercalate "/" (normSegs isAbs [] (splitSlash [] joined.data))
    if core = "" then
      if isAbs then "/" else if trailingSep then "./" else "."
    else
      let core2 := if trailingSep then core ++ "/" else core
      if isAbs then "/" ++ core2 else core2

/-- `rename` as written in `remoteFileService.ts:173-177`: compute
`paths.join(paths.dirname(resource.fsPath), newName)` and delegate to
`moveFile(resource, uri.file(newPath))`.  `moveFile` is a TODO stub in the
source, so it is taken as a parameter. -/
def rename (moveFile : URI → URI → α) (resource : URI) (newName : String) : α :=
  moveFile resource (URI.file (joinPaths (dirname resource.fsPath) newName))

/-- Claim C9: for every resource and new name, `rename(resource, newName)`
returns exactly the result of `moveFile(resource, target)` where `target` is
the file URI for the path obtained by joining the directory of the
resource's filesystem path with the new name. -/
theorem rename_eq_moveFile {α : Type} (moveFile : URI → URI → α)
    (resource : URI) (newName : String) :
    rename moveFile resource newName =
      moveFile resource (URI.file (joinPaths (dirname resource.fsPath) newName)) :=
  rfl

theorem rename_concrete :
    rename (fun _ target => target) (URI.file "/a/b.txt") "c.txt" =
      URI.file "/a/c.txt" := by
  decide

/-! ### `FileService.updateOptions` (`remoteFileService.ts:107-111`)

`updateOptions(options)` runs `objects.mixin(this.options, options)` when
`options` is truthy and does nothing otherwise.

Modelled from the spec: `objects.mixin` (`vs/base/common/objects`) is not
under `src/`; it copies every own key of the source object into the
destination, overwriting existing keys (the recursive merge branch applies
only to plain-object values, and every `IFileServiceOptions` value is a
string, boolean, array or function, so for this options shape mixin is a
flat per-key overwrite).  An options object is a string-keyed map without
duplicate keys; a falsy argument (`null`/`undefined`) is `none`. -/

/-- Values an `IFileServiceOptions` key can hold: strings, booleans, arrays
and functions (functions identified opaquely). -/
inductive OptionValue where
  | str : String → OptionValue
  | bool : Bool → OptionValue
  | strList : List String → OptionValue
  | fn : Nat → OptionValue
deriving DecidableEq

def JSObj := List (String × OptionValue)
deriving DecidableEq

def lookupKey (o : JSObj) (k : String) : Option OptionValue :=
  List.lookup k o

/-- Assign key `k` on the object, overwriting an existing entry. -/
def setKey : JSObj → String → OptionValue → JSObj
  | [], k, v => [(k, v)]
  | (k2, v2) :: rest, k, v =>
    if k2 = k then (k, v) :: rest else (k2, v2) :: setKey rest k v

/-- `objects.mixin(destination, source)` for flat values: copy every key of
the source into the destination, overwriting. -/
def mixin (destination source : JSObj) : JSObj :=
  source.foldl (fun d kv => setKey d kv.1 kv.2) destination

/-- `updateOptions` as written: mutate the held options by mixin when the
argument is truthy, otherwise leave them alone. -/
def updateOptions (current : JSObj) (options : Option JSObj) : JSObj :=
  match options with
  | some o => mixin current o
  | none => current

theorem lookupKey_setKey (d : JSObj) (k k2 : String) (v : OptionValue) :
    lookupKey (setKey d k v) k2 = if k2 = k then some v else lookupKey d k2 := by
  induction d with
  | nil =>
    by_cases h : k2 = k
    · simp [setKey, lookupKey, List.lookup, h]
    · have hbeq : (k2 == k) = false := by simp [h]
      simp [setKey, lookupKey, List.lookup, hbeq, h]
  | cons kv rest ih =>
    obtain ⟨k3, v3⟩ := kv
    by_cases h3 : k3 = k
    · subst h3
      by_cases h : k2 = k3
      · simp [setKey, lookupKey, List.lookup, h]
      · have hbeq : (k2 == k3) = false := by simp [h]
        simp [setKey, lookupKey, List.lookup, hbeq, h]
    · by_cases h : k2 = k3
      · subst h
        simp [setKey, h3, lookupKey, List.lookup]
      · have hbeq : (k2 == k3) = false := by simp [h]
        simp only [setKey, if_neg h3, lookupKey, List.lookup, hbeq]
        simpa [lookupKey] using ih

theorem lookup_eq_none_of_not_mem_keys (rest : JSObj) (k : String)
    (hk : k ∉ rest.map Prod.fst) : List.lookup k rest = none := by
  induction rest with
  | nil => rfl
  | cons kv r ih =>
    obtain ⟨k2, v2⟩ := kv
    simp only [List.map_cons, List.mem_cons, not_or] at hk
    have hbeq : (k == k2) = false := by simp [hk.1]
    simp [List.lookup, hbeq, ih hk.2]

theorem lookupKey_mixin (source : JSObj) :
    ∀ (destination : JSObj) (k : String), (source.map Prod.fst).Nodup →
      lookupKey (mixin destination source) k =
        match lookupKey source k with
        | some v => some v
        | none => lookupKey destination k := by
  induction source with
  | nil =>
    intro destination k _
    simp [mixin, lookupKey, List.lookup]
  | cons kv rest ih =>
    intro destination k hnd
    obtain ⟨k2, v2⟩ := kv
    simp only [List.map_cons, List.nodup_cons] at hnd
    obtain ⟨hk2, hndrest⟩ := hnd
    have hmix : mixin destination ((k2, v2) :: rest) =
        mixin (setKey destination k2 v2) rest := rfl
    rw [hmix, ih (setKey destination k2 v2) k hndrest]
    by_cases h : k = k2
    · subst h
      have hlook : List.lookup k rest = none :=
        lookup_eq_none_of_not_mem_keys rest k hk2
      have hsk := lookupKey_setKey destination k k v2
      simp only [lookupKey] at hsk
      simp [hlook, lookupKey, List.lookup, hsk]
    · have hbeq : (k == k2) = false := by simp [h]
      have hsk := lookupKey_setKey destination k2 k v2
      simp only [lookupKey] at hsk
      simp only [lookupKey, List.lookup, hbeq]
      cases hl : List.lookup k rest with
      | none => simp [hsk, h, hl]
      | some v => simp [hl]

/-- Claim C10: `updateOptions(options)` with a falsy argument leaves the
service's options unchanged; with a truthy argument it overwrites exactly
the option keys present in the argument, while every key absent from the
argument keeps its previous value. -/
theorem updateOptions_spec :
    (∀ current : JSObj, updateOptions current none = current) ∧
    (∀ (current source : JSObj), (source.map Prod.fst).Nodup → ∀ k : String,
      lookupKey (updateOptions current (some source)) k =
        match lookupKey source k with
        | some v => some v
        | none => lookupKey current k) :=
  ⟨fun _ => rfl, fun current source hnd k => lookupKey_mixin source current k hnd⟩

/-- Witness: updating options holding a `tmpDir` and `verboseLogging` with
an argument holding only `verboseLogging` overwrites that key and keeps
`tmpDir`. -/
theorem updateOptions_spec_witness :
    (([("verboseLogging", OptionValue.bool true)] : JSObj).map Prod.fst).Nodup ∧
    lookupKey (updateOptions
        [("tmpDir", OptionValue.str "/tmp"), ("verboseLogging", OptionValue.bool false)]
        (some [("verboseLogging", OptionValue.bool true)])) "verboseLogging" =
      some (OptionValue.bool true) ∧
    lookupKey (updateOptions
        [("tmpDir", OptionValue.str "/tmp"), ("verboseLogging", OptionValue.bool false)]
        (some [("verboseLogging", OptionValue.bool true)])) "tmpDir" =
      some (OptionValue.str "/tmp") :=
  ⟨by decide,
    by
      have h := updateOptions_spec.2
        [("tmpDir", OptionValue.str "/tmp"), ("verboseLogging", OptionValue.bool false)]
        [("verboseLogging", OptionValue.bool true)] (by decide) "verboseLogging"
      simpa using h,
    by
      have h := updateOptions_spec.2
        [("tmpDir", OptionValue.str "/tmp"), ("verboseLogging", OptionValue.bool false)]
        [("verboseLogging", OptionValue.bool true)] (by decide) "tmpDir"
      simpa using h⟩

end RemoteFileService
